import Mathlib

/-!
Shallow embedding of the fingerprint-matching engine of `attacks/leaky.py`
(the "leaky streams" attack of the Raising-the-Bar repository), together with
proofs relating it to the natural-language specification.

Modelling conventions:
* Numbers are modelled as exact rationals; the Python code computes with IEEE
  floats and this development reasons about the idealised real-valued
  algorithm, as the specification does.
* A Python function that can raise an exception is embedded as an
  `Option`-valued function which returns `none` exactly when the Python code
  raises; `none` propagates outward, mirroring an uncaught exception.
* Python dictionaries are modelled as association lists in insertion order:
  `dictInsert` updates in place or appends (insertion-order semantics) and
  `dictLookup` lets the latest binding win, matching assignment overwrite.
* Text handled by the Python standard library (`str.split`, `int`,
  `ast.literal_eval`, `str` formatting) is modelled at token granularity
  where the claims need it; trace lines are modelled as already split on
  commas, and database lines as already split on tabs.
* The external `kdtree` package and `numpy` are not part of the repository;
  they are modelled from their documented contracts (an exact inclusive range
  query, and the Pearson correlation coefficient).
-/

namespace Leaky

/-- Number of candidate videos (`NUM_CLASSES` in the source). -/
def NUM_CLASSES : ℕ := 100

/-- Number of segments in a fingerprint (`FINGERPRINT_SIZE` in the source). -/
def FINGERPRINT_SIZE : ℕ := 45

/-- Correlation threshold; anything strictly greater is considered a match. -/
def CORRELATION_THRESH : ℚ := 9 / 10

/-- Loose range-search bound for dimension 1 (total size). -/
def T1_LOOSE : ℚ := 1 / 10

/-- Loose range-search bound for dimensions 2-6. -/
def T2_LOOSE : ℚ := 3 / 100

/-- Tight range-search bound for dimension 1 (total size). -/
def T1_TIGHT : ℚ := 7 / 100

/-- Tight range-search bound for dimensions 2-6. -/
def T2_TIGHT : ℚ := 3 / 100

/-- The 6-dimensional descriptor returned by `calculate_key`: the Python
6-tuple `(total_size, dim2, dim3, dim4, dim5, dim6)`. -/
structure Key6 where
  k0 : ℚ
  k1 : ℚ
  k2 : ℚ
  k3 : ℚ
  k4 : ℚ
  k5 : ℚ
  deriving DecidableEq

/-- The coordinates of a descriptor as a list, as in `Point(list(key))`. -/
def Key6.toList (k : Key6) : List ℚ :=
  [k.k0, k.k1, k.k2, k.k3, k.k4, k.k5]

/-- The k-d tree key for a window of 30 segments (`calculate_key`, leaky.py
lines 99-110).  Dimension 1 is the total amount of data in the window and
dimensions 2-6 are the shares of five six-segment slices.  division in Lean on
`ℚ` is total, so this is the value computed when `window.sum` is nonzero; the
Python original raises `ZeroDivisionError` on a zero total, which
`calculate_key?` models. -/
def calculate_key (window : List ℚ) : Key6 :=
  let total_size := window.sum
  ⟨total_size,
    (window.take 6).sum / total_size,
    ((window.drop 6).take 6).sum / total_size,
    ((window.drop 12).take 6).sum / total_size,
    ((window.drop 18).take 6).sum / total_size,
    (window.drop 24).sum / total_size⟩

/-- The Key Function with the Python exception behaviour made explicit:
`none` models the `ZeroDivisionError` raised when the window sums to zero. -/
def calculate_key? (window : List ℚ) : Option Key6 :=
  if window.sum = 0 then none else some (calculate_key window)

/-! ### Fingerprint store (`save_fingerprints` / `load_fingerprints`) -/

/-- Result of a successful `ast.literal_eval` on a database field: either a
fingerprint-shaped literal (a tuple of sequences of sizes) or a plain integer
literal.  Other literal shapes are irrelevant to the claims. -/
inductive PyLit where
  | fp (v : List (List ℚ))
  | num (n : ℕ)
  deriving DecidableEq

/-- A tab-separated field of a database file, classified by how the Python functions
`int` and `ast.literal_eval` treat its text: `intTok n` is a (possibly
zero-padded) decimal numeral, `fpTok v` is a tuple-of-sequences literal (on
which `int` raises `ValueError`), and `badTok` is text on which both `int`
and `ast.literal_eval` raise. -/
inductive Tok where
  | intTok (n : ℕ)
  | fpTok (v : List (List ℚ))
  | badTok
  deriving DecidableEq

/-- Python `int()` applied to a field. -/
def pyInt : Tok → Option ℕ
  | Tok.intTok n => some n
  | _ => none

/-- Python `ast.literal_eval` applied to a field (an unpadded numeral is a
valid integer literal; a fingerprint tuple evaluates to itself). -/
def pyLiteralEval : Tok → Option PyLit
  | Tok.intTok n => some (PyLit.num n)
  | Tok.fpTok v => some (PyLit.fp v)
  | Tok.badTok => none

/-- The field that `str(value)` produces for a stored database value. -/
def tokOfLit : PyLit → Tok
  | PyLit.num n => Tok.intTok n
  | PyLit.fp v => Tok.fpTok v

/-- Python-dict assignment on an association list: an existing binding is
updated in place (insertion order is preserved), a new key is appended. -/
def dictInsert {α β : Type} [DecidableEq α] (l : List (α × β)) (k : α) (v : β) :
    List (α × β) :=
  if l.any (fun p => decide (p.1 = k)) then
    l.map (fun p => if p.1 = k then (k, v) else p)
  else l ++ [(k, v)]

/-- Python-dict lookup on an association list built with `dictInsert`: the
latest binding for a key wins.  Returns `none` (a `KeyError`) for an absent
key. -/
def dictLookup {α β : Type} [DecidableEq α] (l : List (α × β)) (k : α) : Option β :=
  l.foldl (fun acc p => if p.1 = k then some p.2 else acc) none

/-- Serialisation of a fingerprint database (`save_fingerprints`, leaky.py
lines 62-65): one line per dictionary entry, in insertion order, holding the
zero-padded id field and the `str(...)` of the stored value.  A line is
modelled as its list of tab-separated fields. -/
def save_fingerprints (database : List (ℕ × PyLit)) : List (List Tok) :=
  database.map (fun p => [Tok.intTok p.1, tokOfLit p.2])

/-- One pass of the load loop of `load_fingerprints` (leaky.py lines 69-85):
lines without exactly 2 tab-separated fields are skipped, and parse failures
of `int` or `ast.literal_eval` propagate (modelled as `none`). -/
def loadLines : List (List Tok) → List (ℕ × PyLit) → Option (List (ℕ × PyLit))
  | [], database => some database
  | line :: rest, database =>
    if line.length ≠ 2 then loadLines rest database
    else
      match pyInt (line.getD 0 Tok.badTok), pyLiteralEval (line.getD 1 Tok.badTok) with
      | some video_id, some fingerprint =>
        loadLines rest (dictInsert database video_id fingerprint)
      | _, _ => none

/-- Deserialisation of a fingerprint database (`load_fingerprints`). -/
def load_fingerprints (lines : List (List Tok)) : Option (List (ℕ × PyLit)) :=
  loadLines lines []

/-! ### k-d tree construction and range query -/

/-- Descriptor and metadata entries generated by one video of the database,
in the loop order of `build_kdtree` (quality 0..2, offset 0..15). -/
def fingerprintEntries (video : ℕ) (fp : List (List ℚ)) :
    Option (List (Key6 × (ℕ × ℕ × ℕ))) :=
  (List.range 3).foldl
    (fun acc quality =>
      (List.range (FINGERPRINT_SIZE - 29)).foldl
        (fun acc2 offset =>
          match acc2 with
          | none => none
          | some l =>
            match calculate_key? (((fp.getD quality []).drop offset).take 30) with
            | none => none
            | some key => some (l ++ [(key, (video, quality, offset))]))
        acc)
    (some [])

/-- Construction of the spatial index (`build_kdtree`, leaky.py lines
114-127): the list of indexed points (in insertion order) and the
descriptor-to-metadata table.  The table is an association list in write
order and is read with `dictLookup`, so a key collision lets the later write
win, exactly as Python dictionary assignment does. -/
def build_kdtree (database : List (ℕ × List (List ℚ))) :
    Option (List Key6 × List (Key6 × (ℕ × ℕ × ℕ))) :=
  (database.foldl
    (fun acc entry =>
      match acc with
      | none => none
      | some l =>
        match fingerprintEntries entry.1 entry.2 with
        | none => none
        | some l2 => some (l ++ l2))
    (some [])).map (fun entries => (entries.map Prod.fst, entries))

/-- Whether a point lies inside a per-dimension inclusive bounding box. -/
def inBounds (p : Key6) (bounds : List (ℚ × ℚ)) : Bool :=
  (p.toList.zip bounds).all (fun x => decide (x.2.1 ≤ x.1) && decide (x.1 ≤ x.2.2))

/-- Modelled from the spec: the range query of the external `kdtree` package
(`KdTree.get_points_within_bounds`), which is not part of this repository.
Per its contract in the specification it returns every indexed point whose
every coordinate lies within its `[lo, hi]` bound, inclusive; the stored
order of the points is one admissible result order. -/
def get_points_within_bounds (points : List Key6) (bounds : List (ℚ × ℚ)) :
    List Key6 :=
  points.filter (fun p => inBounds p bounds)

/-! ### Correlation verifier (leaky.py lines 222-241) -/

/-- The list of pairs `(abs((candidate[i] - capture[i]) / capture[i]), i)`
for `i` in `range(30)`, exactly as the source builds `diffs`. -/
def relDiffs (capture candidate : List ℚ) : List (ℚ × ℕ) :=
  (List.range 30).map
    (fun i => (|(candidate.getD i 0 - capture.getD i 0) / capture.getD i 0|, i))

/-- Ascending lexicographic order on (relative difference, index) pairs;
the sort method of Python lists orders 2-tuples exactly this way. -/
def pairLe (a b : ℚ × ℕ) : Prop :=
  a.1 < b.1 ∨ (a.1 = b.1 ∧ a.2 ≤ b.2)

instance : DecidableRel pairLe := fun a b => by unfold pairLe; infer_instance

/-- Descending lexicographic order on (relative difference, index) pairs. -/
def pairGe (a b : ℚ × ℕ) : Prop := pairLe b a

instance : DecidableRel pairGe := fun a b => by unfold pairGe; infer_instance

/-- Descending order on indices, as `outliers.sort(reverse = True)` uses. -/
def natGe (a b : ℕ) : Prop := b ≤ a

instance : DecidableRel natGe := fun a b => by unfold natGe; infer_instance

/-- Sequential in-place deletion `del l[i]` for each listed index in turn. -/
def eraseIdxs (l : List ℚ) (idxs : List ℕ) : List ℚ :=
  idxs.foldl (fun acc i => acc.eraseIdx i) l

/-- Scaled variance of a sample: `n·Σx² − (Σx)²`, which is `n²` times the
variance used inside the Pearson correlation coefficient. -/
def pvar (x : List ℚ) : ℚ :=
  (x.length : ℚ) * (x.map (fun a => a * a)).sum - x.sum * x.sum

/-- Scaled covariance of two equal-length samples: `n·Σxy − Σx·Σy`. -/
def pcov (x y : List ℚ) : ℚ :=
  (x.length : ℚ) * ((x.zip y).map (fun p => p.1 * p.2)).sum - x.sum * y.sum

/-- Modelled from the contract of `numpy.corrcoef`: the test
`corrcoef(x, y)[0][1] > t` for a threshold `t > 0`.  The coefficient is
`pcov / sqrt (pvar x * pvar y)`, so for `t > 0` the strict comparison holds
exactly when both variances are positive, the covariance is positive, and
`pcov² > t²·(pvar x · pvar y)`; when a variance is zero `numpy` yields `nan`
and the comparison is false, matching the first two conjuncts. -/
def pearsonGT (x y : List ℚ) (t : ℚ) : Bool :=
  decide (0 < pvar x) && decide (0 < pvar y) && decide (0 < pcov x y) &&
    decide (t * t * (pvar x * pvar y) < pcov x y * pcov x y)

/-- The Pearson correlation coefficient of `x` and `y` being exactly equal to
the positive threshold `t`, in the same square-free form as `pearsonGT`. -/
def pearsonEqThresh (x y : List ℚ) (t : ℚ) : Prop :=
  0 < pvar x ∧ 0 < pvar y ∧ 0 < pcov x y ∧
    pcov x y * pcov x y = t * t * (pvar x * pvar y)

/-- The correlation verifier (leaky.py lines 222-241): build the relative
difference list, sort it ascending, take the last four entries as outliers,
delete those positions (largest index first) from both sequences, and accept
when the Pearson correlation of the reduced sequences strictly exceeds the
threshold.  `none` models the `ZeroDivisionError` raised when some
`capture[i]` with `i < 30` is zero. -/
def verify_candidate (capture candidate : List ℚ) : Option Bool :=
  if (List.range 30).any (fun i => decide (capture.getD i 0 = 0)) then none
  else
    let diffs := relDiffs capture candidate
    let sorted := List.insertionSort pairLe diffs
    let outliers := (sorted.drop (sorted.length - 4)).map Prod.snd
    let outliersDesc := List.insertionSort natGe outliers
    some (pearsonGT (eraseIdxs capture outliersDesc) (eraseIdxs candidate outliersDesc)
      CORRELATION_THRESH)

/-- The relative differences exactly as the specification words them:
`|candidate[i] − capture[i]| / capture[i]`. -/
def specRelDiffs (capture candidate : List ℚ) : List (ℚ × ℕ) :=
  (List.range 30).map
    (fun i => (|candidate.getD i 0 - capture.getD i 0| / capture.getD i 0, i))

/-- The correlation verifier as the specification states it: rank the indices
by relative difference descending (ties, about which the specification is
silent, broken toward the higher index), select the first four as outliers,
remove those positions from both sequences preserving the relative order of
the remaining ones, and accept exactly when the Pearson correlation coefficient
of the reduced sequences strictly exceeds 0.9. -/
def verify_spec (capture candidate : List ℚ) : Bool :=
  let ranked := List.insertionSort pairGe (specRelDiffs capture candidate)
  let outliers := (ranked.take 4).map Prod.snd
  let kept := (List.range 30).filter (fun i => !(decide (i ∈ outliers)))
  pearsonGT (kept.map (fun i => capture.getD i 0)) (kept.map (fun i => candidate.getD i 0))
    CORRELATION_THRESH

/-! ### Trace parsing (`get_last_time`, `get_throughput`) -/

/-- The empty string, used as the out-of-range default for token access. -/
def emptyStr : String := ""

/-- Python `int()` on a clean decimal numeral token (trace files carry plain
digit strings in the timestamp and size fields). -/
def pyIntStr (s : String) : Option ℤ := s.toInt?

/-- The direction test of `get_last_time`: the token is compared for equality
against each of `r`, `r+p`, `s`, `s+p`. -/
def dirB (s : String) : Bool :=
  decide (s = "r") || decide (s = "r+p") || decide (s = "s") || decide (s = "s+p")

/-- Scan of the (already reversed) trace lines by `get_last_time` (leaky.py
lines 132-144): lines with fewer than two comma-separated fields are skipped;
the first line whose direction field equals `r`, `r+p`, `s` or `s+p` yields
its timestamp in seconds rounded up to the nearest two seconds; if no line
matches, the sentinel `-1` is returned. -/
def lastTimeAux : List (List String) → Option ℤ
  | [] => some (-1)
  | line :: rest =>
    if line.length < 2 then lastTimeAux rest
    else if dirB (line.getD 1 emptyStr) then
      match pyIntStr (line.getD 0 emptyStr) with
      | none => none
      | some t => some (Int.ceil (((t : ℚ) / 1000000000) / 2) * 2)
    else lastTimeAux rest

/-- The last time of a trace (`get_last_time`): the lines of the trace are scanned
in reverse.  Each line is modelled as its list of comma-separated fields. -/
def get_last_time (lines : List (List String)) : Option ℤ :=
  lastTimeAux lines.reverse

/-- The body of the binning while-loop: extend `bw` with zero bins until its
length exceeds `offset`, then add `size` to bin `floor offset` (`offset` is
nonnegative whenever this is reached). -/
def addToBin (bw : List ℚ) (offset : ℚ) (size : ℚ) : List ℚ :=
  let i := (Int.floor offset).toNat
  let bw2 := bw ++ List.replicate (i + 1 - bw.length) 0
  bw2.set i (bw2.getD i 0 + size)

/-- The line loop of `get_throughput` (leaky.py lines 156-180): lines with
fewer than three fields are skipped; the timestamp and size fields are parsed
(failures propagate); lines before the eavesdropping period are skipped and
the loop breaks at the first line at or past its end; only lines whose
direction field contains the letter `r` are binned. -/
def binLines (lastTime startQ endQ : ℚ) : List (List String) → List ℚ → Option (List ℚ)
  | [], bw => some bw
  | line :: rest, bw =>
    if line.length < 3 then binLines lastTime startQ endQ rest bw
    else
      match pyIntStr (line.getD 0 emptyStr), pyIntStr (line.getD 2 emptyStr) with
      | some t, some size =>
        let timestamp : ℚ := (t : ℚ) / 1000000000
        if timestamp < lastTime - startQ then binLines lastTime startQ endQ rest bw
        else if lastTime - endQ ≤ timestamp then some bw
        else if !((line.getD 1 emptyStr).contains 'r') then
          binLines lastTime startQ endQ rest bw
        else
          binLines lastTime startQ endQ rest
            (addToBin bw ((timestamp - (lastTime - startQ)) / 2) (size : ℚ))
      | _, _ => none

/-- The throughput bins of a trace before the header-overhead correction and
final padding: `get_throughput` up to and including its binning loop. -/
def raw_throughput (lines : List (List String)) (startQ endQ : ℚ) : Option (List ℚ) :=
  match get_last_time lines with
  | none => none
  | some lastTime => binLines (lastTime : ℚ) startQ endQ lines []

/-- The padding while-loop at the end of `get_throughput`: append zero bins
while the length is strictly below `q`. -/
def padTo (l : List ℚ) (q : ℚ) : List ℚ :=
  l ++ List.replicate ((Int.ceil q).toNat - l.length) 0

/-- The throughput per two seconds of a trace (`get_throughput`, leaky.py
lines 149-192): the raw bins, each multiplied by `1460/1500` to account for
lower-layer header overhead, then padded with zero bins so that the length
covers the `[start, end)` eavesdropping period. -/
def get_throughput (lines : List (List String)) (startQ endQ : ℚ) : Option (List ℚ) :=
  match raw_throughput lines startQ endQ with
  | none => none
  | some bw => some (padTo (bw.map (fun x => x * (1460 / 1500))) ((startQ - endQ) / 2))

/-! ### The per-trace classifier (`perform_attack`, leaky.py lines 196-268) -/

/-- Per-trace evidence: the accumulated match records
`(candidate_video, candidate_offset, capture_offset)` and the per-video vote
counters. -/
structure ScanState where
  matchList : List (ℕ × ℕ × ℕ)
  counts : List ℕ
  deriving DecidableEq

/-- The initial per-trace state: no matches, `NUM_CLASSES` zero votes. -/
def initState : ScanState :=
  ⟨[], List.replicate NUM_CLASSES 0⟩

/-- The pair list `itertools.combinations(range(n), 2)` in its order. -/
def combinations2 (n : ℕ) : List (ℕ × ℕ) :=
  (List.range n).flatMap
    (fun i => ((List.range n).filter (fun j => decide (i < j))).map (fun j => (i, j)))

/-- The fast-mode test on one pair of match records: same candidate video,
database-offset distance at least 5 and equal to the capture-offset
distance. -/
def fastPair (m1 m2 : ℕ × ℕ × ℕ) : Bool :=
  decide (m1.1 = m2.1) &&
    decide (5 ≤ |(m1.2.1 : ℤ) - (m2.2.1 : ℤ)|) &&
    decide (|(m1.2.1 : ℤ) - (m2.2.1 : ℤ)| = |(m1.2.2 : ℤ) - (m2.2.2 : ℤ)|)

/-- Stage 3a of `perform_attack` (leaky.py lines 243-258): scan every pair of
accumulated match records in combination order; the first pair passing
`fastPair` decides its video in fast mode. -/
def fastDecision (ms : List (ℕ × ℕ × ℕ)) : Option ℕ :=
  ((combinations2 ms.length).find?
      (fun p => fastPair (ms.getD p.1 (0, 0, 0)) (ms.getD p.2 (0, 0, 0)))).map
    (fun p => (ms.getD p.1 (0, 0, 0)).1)

/-- The bounding box of stage 1: dimension 1 uses margin `T1·key[0]` and
dimensions 2-6 use margin `T2·key[i]`. -/
def boxBounds (key : Key6) (T1 T2 : ℚ) : List (ℚ × ℚ) :=
  [(key.k0 - T1 * key.k0, key.k0 + T1 * key.k0),
    (key.k1 - T2 * key.k1, key.k1 + T2 * key.k1),
    (key.k2 - T2 * key.k2, key.k2 + T2 * key.k2),
    (key.k3 - T2 * key.k3, key.k3 + T2 * key.k3),
    (key.k4 - T2 * key.k4, key.k4 + T2 * key.k4),
    (key.k5 - T2 * key.k5, key.k5 + T2 * key.k5)]

/-- Stage 2 for a single candidate key: resolve it through the metadata
table (a missing key would be a `KeyError`), fetch the candidate window from
the database, run the correlation verifier, and on acceptance append a match
record, bump the vote of the video (an out-of-range video id would be an
`IndexError`) and run the fast-mode check.  `Sum.inl` is an early fast-mode
return, `Sum.inr` continues the scan with the updated state. -/
def processCandidate (db : List (ℕ × List (List ℚ))) (md : List (Key6 × (ℕ × ℕ × ℕ)))
    (capture : List ℚ) (offset : ℕ) (st : ScanState) (ck : Key6) :
    Option ((ℕ × Bool) ⊕ ScanState) :=
  match dictLookup md ck with
  | none => none
  | some meta =>
    match dictLookup db meta.1 with
    | none => none
    | some fp =>
      let candidate := ((fp.getD meta.2.1 []).drop meta.2.2).take 30
      match verify_candidate capture candidate with
      | none => none
      | some false => some (Sum.inr st)
      | some true =>
        if meta.1 < st.counts.length then
          let matches2 := st.matchList ++ [(meta.1, meta.2.2, offset)]
          let counts2 := st.counts.set meta.1 (st.counts.getD meta.1 0 + 1)
          match fastDecision matches2 with
          | some v => some (Sum.inl (v, true))
          | none => some (Sum.inr ⟨matches2, counts2⟩)
        else none

/-- The stage-2 loop over all candidate keys returned by the range query. -/
def processCandidates (db : List (ℕ × List (List ℚ))) (md : List (Key6 × (ℕ × ℕ × ℕ)))
    (capture : List ℚ) (offset : ℕ) :
    List Key6 → ScanState → Option ((ℕ × Bool) ⊕ ScanState)
  | [], st => some (Sum.inr st)
  | ck :: rest, st =>
    match processCandidate db md capture offset st ck with
    | none => none
    | some (Sum.inl r) => some (Sum.inl r)
    | some (Sum.inr st2) => processCandidates db md capture offset rest st2

/-- One capture offset of the scan: compute the capture window and its key
(a zero-sum window raises), build the bounding box, query the index, and run
stage 2 on the candidates. -/
def scanOffset (db : List (ℕ × List (List ℚ))) (md : List (Key6 × (ℕ × ℕ × ℕ)))
    (points : List Key6) (T1 T2 : ℚ) (bw : List ℚ) (offset : ℕ) (st : ScanState) :
    Option ((ℕ × Bool) ⊕ ScanState) :=
  let capture := (bw.drop offset).take 30
  match calculate_key? capture with
  | none => none
  | some key =>
    let candidate_keys := get_points_within_bounds points (boxBounds key T1 T2)
    processCandidates db md capture offset candidate_keys st

/-- The scan over capture offsets; a fast-mode result short-circuits the
remaining offsets, and an error (`none`) aborts the whole attack. -/
def scanLoop (db : List (ℕ × List (List ℚ))) (md : List (Key6 × (ℕ × ℕ × ℕ)))
    (points : List Key6) (T1 T2 : ℚ) (bw : List ℚ) :
    List ℕ → ScanState → Option ((ℕ × Bool) ⊕ ScanState)
  | [], st => some (Sum.inr st)
  | offset :: rest, st =>
    match scanOffset db md points T1 T2 bw offset st with
    | none => none
    | some (Sum.inl r) => some (Sum.inl r)
    | some (Sum.inr st2) => scanLoop db md points T1 T2 bw rest st2

/-- Dimension-1 bound selected by the `loose` flag. -/
def T1sel (loose : Bool) : ℚ :=
  if loose then T1_LOOSE else T1_TIGHT

/-- Dimension-2-6 bound selected by the `loose` flag. -/
def T2sel (loose : Bool) : ℚ :=
  if loose then T2_LOOSE else T2_TIGHT

/-- Python `max` over a list of vote counts; the counts list always has
`NUM_CLASSES` entries, so the empty-list `ValueError` cannot occur and the
fold from zero agrees with `max` on every nonempty list of naturals. -/
def maxOfList (l : List ℕ) : ℕ :=
  l.foldl max 0

/-- The classifier on an already computed throughput vector: the offset scan
(leaky.py lines 209-258), then stage 3b, slow mode (lines 260-268), which
returns `counts.index(max(counts))` — the first video attaining the maximal
vote count — with the fast-mode flag `false`. -/
def classify_bw (db : List (ℕ × List (List ℚ))) (md : List (Key6 × (ℕ × ℕ × ℕ)))
    (points : List Key6) (bw : List ℚ) (loose : Bool) : Option (ℕ × Bool) :=
  match scanLoop db md points (T1sel loose) (T2sel loose) bw
      (List.range (bw.length - 29)) initState with
  | none => none
  | some (Sum.inl r) => some r
  | some (Sum.inr st) => some (st.counts.indexOf (maxOfList st.counts), false)

/-- The attack on one trace (`perform_attack`): compute the throughput
vector, then classify it. -/
def perform_attack (db : List (ℕ × List (List ℚ))) (md : List (Key6 × (ℕ × ℕ × ℕ)))
    (points : List Key6) (lines : List (List String)) (startQ endQ : ℚ)
    (loose : Bool) : Option (ℕ × Bool) :=
  match get_throughput lines startQ endQ with
  | none => none
  | some bw => classify_bw db md points bw loose

/-! ### Helper lemmas about sums and windows -/

theorem sum_map_mul (c : ℚ) (l : List ℚ) : (l.map (fun x => c * x)).sum = c * l.sum := by
  induction l with
  | nil => simp
  | cons a t ih => simp [ih, mul_add]

theorem sum_take_add_sum_drop (l : List ℚ) (n : ℕ) :
    (l.take n).sum + (l.drop n).sum = l.sum := by
  induction l generalizing n with
  | nil => simp
  | cons a t ih =>
    cases n with
    | zero => simp
    | succ m =>
      have := ih m
      simp only [List.take_succ_cons, List.drop_succ_cons, List.sum_cons]
      rw [add_assoc, this]

theorem getD_drop (l : List ℚ) (o i : ℕ) : (l.drop o).getD i 0 = l.getD (o + i) 0 := by
  simp [List.getD_eq_getElem?_getD, List.getElem?_drop]

theorem sum_take_eq_range (l : List ℚ) (k : ℕ) (h : k ≤ l.length) :
    (l.take k).sum = ((List.range k).map (fun i => l.getD i 0)).sum := by
  induction k with
  | zero => simp
  | succ m ih =>
    have hm : m < l.length := lt_of_lt_of_le (Nat.lt_succ_self m) h
    rw [List.take_succ, List.range_succ, List.map_append, List.sum_append,
      ih (le_of_lt hm)]
    simp [List.getElem?_eq_getElem hm, List.getD_eq_getElem?_getD]

theorem sum_drop_take_eq_range (l : List ℚ) (o k : ℕ) (h : o + k ≤ l.length) :
    ((l.drop o).take k).sum = ((List.range k).map (fun i => l.getD (o + i) 0)).sum := by
  have hk : k ≤ (l.drop o).length := by
    rw [List.length_drop]
    omega
  rw [sum_take_eq_range _ _ hk]
  simp [getD_drop]

/-! ### Claims about the Key Function (C4, C5, C6) -/

/-- Claim C4: the Key Function is scale-covariant: for every 30-element
window `w` with positive sum and every positive scalar `c`, `key(c·w)` has
total `c` times the total of `key(w)` and identical fractional components
`p1..p5`. -/
theorem C4_key_scale_covariant (w : List ℚ) (c : ℚ) (hw : 0 < w.sum) (hc : 0 < c) :
    calculate_key (w.map (fun x => c * x)) =
      ⟨c * (calculate_key w).k0, (calculate_key w).k1, (calculate_key w).k2,
        (calculate_key w).k3, (calculate_key w).k4, (calculate_key w).k5⟩ := by
  have hc' : c ≠ 0 := ne_of_gt hc
  simp only [calculate_key, Key6.mk.injEq, ← List.map_take, ← List.map_drop, sum_map_mul]
  refine ⟨trivial, ?_, ?_, ?_, ?_, ?_⟩ <;> exact mul_div_mul_left _ _ hc'

/-- Witness for C4 at a concrete window and scalar. -/
theorem C4_witness :
    calculate_key ((List.replicate 30 (1 : ℚ)).map (fun x => 2 * x)) =
      ⟨2 * (calculate_key (List.replicate 30 (1 : ℚ))).k0,
        (calculate_key (List.replicate 30 (1 : ℚ))).k1,
        (calculate_key (List.replicate 30 (1 : ℚ))).k2,
        (calculate_key (List.replicate 30 (1 : ℚ))).k3,
        (calculate_key (List.replicate 30 (1 : ℚ))).k4,
        (calculate_key (List.replicate 30 (1 : ℚ))).k5⟩ :=
  C4_key_scale_covariant (List.replicate 30 1) 2 (by decide!) (by norm_num)

/-- Claim C5: for a 30-element window with nonzero sum the descriptor has
total equal to the window sum, fractional components given by the
six-element sub-slices starting at indices 0, 6, 12, 18 and the remainder at
24, and the five fractions sum to exactly 1. -/
theorem C5_key_descriptor (w : List ℚ) (hlen : w.length = 30) (hsum : w.sum ≠ 0) :
    (calculate_key w).k0 = w.sum ∧
    (calculate_key w).k1 = ((List.range 6).map (fun i => w.getD i 0)).sum / w.sum ∧
    (calculate_key w).k2 = ((List.range 6).map (fun i => w.getD (6 + i) 0)).sum / w.sum ∧
    (calculate_key w).k3 = ((List.range 6).map (fun i => w.getD (12 + i) 0)).sum / w.sum ∧
    (calculate_key w).k4 = ((List.range 6).map (fun i => w.getD (18 + i) 0)).sum / w.sum ∧
    (calculate_key w).k5 = ((List.range 6).map (fun i => w.getD (24 + i) 0)).sum / w.sum ∧
    (calculate_key w).k1 + (calculate_key w).k2 + (calculate_key w).k3 +
      (calculate_key w).k4 + (calculate_key w).k5 = 1 := by
  have h24 : (w.drop 24).take 6 = w.drop 24 :=
    List.take_of_length_le (by rw [List.length_drop, hlen])
  have e1 : (w.take 6).sum = ((List.range 6).map (fun i => w.getD i 0)).sum :=
    sum_take_eq_range w 6 (by omega)
  have e2 : ((w.drop 6).take 6).sum = ((List.range 6).map (fun i => w.getD (6 + i) 0)).sum :=
    sum_drop_take_eq_range w 6 6 (by omega)
  have e3 : ((w.drop 12).take 6).sum = ((List.range 6).map (fun i => w.getD (12 + i) 0)).sum :=
    sum_drop_take_eq_range w 12 6 (by omega)
  have e4 : ((w.drop 18).take 6).sum = ((List.range 6).map (fun i => w.getD (18 + i) 0)).sum :=
    sum_drop_take_eq_range w 18 6 (by omega)
  have e5 : (w.drop 24).sum = ((List.range 6).map (fun i => w.getD (24 + i) 0)).sum := by
    rw [← h24]
    exact sum_drop_take_eq_range w 24 6 (by omega)
  have hpart : (w.take 6).sum + ((w.drop 6).take 6).sum + ((w.drop 12).take 6).sum +
      ((w.drop 18).take 6).sum + (w.drop 24).sum = w.sum := by
    have p1 := sum_take_add_sum_drop w 6
    have p2 := sum_take_add_sum_drop (w.drop 6) 6
    have p3 := sum_take_add_sum_drop (w.drop 12) 6
    have p4 := sum_take_add_sum_drop (w.drop 18) 6
    simp only [List.drop_drop] at p2 p3 p4
    norm_num at p2 p3 p4
    linarith
  refine ⟨rfl, ?_, ?_, ?_, ?_, ?_, ?_⟩
  · exact congrArg (fun x => x / w.sum) e1
  · exact congrArg (fun x => x / w.sum) e2
  · exact congrArg (fun x => x / w.sum) e3
  · exact congrArg (fun x => x / w.sum) e4
  · exact congrArg (fun x => x / w.sum) e5
  show (w.take 6).sum / w.sum + ((w.drop 6).take 6).sum / w.sum +
      ((w.drop 12).take 6).sum / w.sum + ((w.drop 18).take 6).sum / w.sum +
      (w.drop 24).sum / w.sum = 1
  rw [div_add_div_same, div_add_div_same, div_add_div_same, div_add_div_same, hpart,
    div_self hsum]

/-- Witness for C5: the five fractions of a concrete window sum to 1. -/
theorem C5_witness :
    (calculate_key (List.replicate 30 (2 : ℚ))).k1 +
      (calculate_key (List.replicate 30 (2 : ℚ))).k2 +
      (calculate_key (List.replicate 30 (2 : ℚ))).k3 +
      (calculate_key (List.replicate 30 (2 : ℚ))).k4 +
      (calculate_key (List.replicate 30 (2 : ℚ))).k5 = 1 :=
  (C5_key_descriptor _ (by simp) (by decide!)).2.2.2.2.2.2

/-- Claim C6: the Key Function fails with a division-by-zero condition
exactly when the window sums to zero, succeeds (returning the descriptor)
otherwise, and the failure is not caught inside the core: it propagates
through the offset scan of the state machine to the classifier result. -/
theorem C6_key_zero_division (w : List ℚ) :
    (calculate_key? w = none ↔ w.sum = 0) ∧
    (w.sum ≠ 0 → calculate_key? w = some (calculate_key w)) ∧
    (∀ db md points T1 T2 bw offset st,
      calculate_key? ((bw.drop offset).take 30) = none →
      scanOffset db md points T1 T2 bw offset st = none) ∧
    (∀ db md points T1 T2 bw offset rest st,
      scanOffset db md points T1 T2 bw offset st = none →
      scanLoop db md points T1 T2 bw (offset :: rest) st = none) ∧
    (∀ db md points bw loose,
      scanLoop db md points (T1sel loose) (T2sel loose) bw
        (List.range (bw.length - 29)) initState = none →
      classify_bw db md points bw loose = none) := by
  refine ⟨?_, ?_, ?_, ?_, ?_⟩
  · unfold calculate_key?
    split <;> simp_all
  · intro h
    simp [calculate_key?, h]
  · intro db md points T1 T2 bw offset st h
    unfold scanOffset
    simp only [h]
  · intro db md points T1 T2 bw offset rest st h
    rw [scanLoop, h]
  · intro db md points bw loose h
    unfold classify_bw
    rw [h]

/-- Witness for C6: a zero window makes the Key Function fail, and a nonzero
one succeeds. -/
theorem C6_witness :
    calculate_key? (List.replicate 30 (0 : ℚ)) = none ∧
    calculate_key? (List.replicate 30 (1 : ℚ)) =
      some (calculate_key (List.replicate 30 (1 : ℚ))) :=
  ⟨(C6_key_zero_division (List.replicate 30 0)).1.mpr (by decide!),
    (C6_key_zero_division (List.replicate 30 1)).2.1 (by decide!)⟩

/-! ### Claims about the fingerprint store (C7, C8) -/

theorem pyLiteralEval_tokOfLit (v : PyLit) : pyLiteralEval (tokOfLit v) = some v := by
  cases v <;> rfl

theorem dictInsert_append (acc : List (ℕ × PyLit)) (k : ℕ) (v : PyLit)
    (h : ∀ q ∈ acc, q.1 ≠ k) : dictInsert acc k v = acc ++ [(k, v)] := by
  unfold dictInsert
  rw [if_neg]
  simp only [List.any_eq_true, decide_eq_true_eq, not_exists]
  intro q hq
  exact h q hq.1 hq.2

theorem loadLines_save (D acc : List (ℕ × PyLit))
    (hnodup : (D.map Prod.fst).Nodup)
    (hdisj : ∀ p ∈ D, ∀ q ∈ acc, q.1 ≠ p.1) :
    loadLines (save_fingerprints D) acc = some (acc ++ D) := by
  induction D generalizing acc with
  | nil => simp [save_fingerprints, loadLines]
  | cons hd rest ih =>
    have hrest : (rest.map Prod.fst).Nodup := (List.nodup_cons.mp hnodup).2
    have hhd : hd.1 ∉ rest.map Prod.fst := (List.nodup_cons.mp hnodup).1
    show loadLines ([Tok.intTok hd.1, tokOfLit hd.2] :: save_fingerprints rest) acc =
      some (acc ++ hd :: rest)
    rw [loadLines]
    rw [if_neg (by simp)]
    simp only [List.getD_cons_zero, List.getD_cons_succ, pyInt, pyLiteralEval_tokOfLit]
    rw [dictInsert_append acc hd.1 hd.2
      (fun q hq => hdisj hd (List.mem_cons_self hd rest) q hq)]
    have hdisj2 : ∀ p ∈ rest, ∀ q ∈ acc ++ [(hd.1, hd.2)], q.1 ≠ p.1 := by
      intro p hp q hq
      rcases List.mem_append.mp hq with hq1 | hq2
      · exact hdisj p (List.mem_cons_of_mem hd hp) q hq1
      · have hq3 : q = (hd.1, hd.2) := by simpa using hq2
        subst hq3
        intro he
        exact hhd (he ▸ List.mem_map_of_mem Prod.fst hp)
    rw [ih (acc ++ [(hd.1, hd.2)]) hrest hdisj2]
    simp

/-- Claim C7: loading the serialised form of a valid fingerprint database
(distinct small video ids, each mapped to a triple of sequences) yields the
database back unchanged: `load(save(D)) = D`. -/
theorem C7_round_trip (D : List (ℕ × PyLit))
    (hnodup : (D.map Prod.fst).Nodup)
    (hvalid : ∀ p ∈ D, ∃ fp, p.2 = PyLit.fp fp ∧ fp.length = 3) :
    load_fingerprints (save_fingerprints D) = some D := by
  unfold load_fingerprints
  simpa using loadLines_save D [] hnodup (by simp)

/-- Witness for C7 on a concrete two-video database. -/
theorem C7_witness :
    load_fingerprints (save_fingerprints
      [(0, PyLit.fp [[1536], [2548], [4096]]), (1, PyLit.fp [[100], [200], [300]])]) =
      some [(0, PyLit.fp [[1536], [2548], [4096]]), (1, PyLit.fp [[100], [200], [300]])] :=
  C7_round_trip _ (by decide)
    (by
      intro p hp
      rcases List.mem_cons.mp hp with rfl | hp2
      · exact ⟨[[1536], [2548], [4096]], rfl, rfl⟩
      · rcases List.mem_cons.mp hp2 with rfl | hp3
        · exact ⟨[[100], [200], [300]], rfl, rfl⟩
        · cases hp3)

/-- Counterexample to claim C8 as stated: a serialised input consisting of a
single malformed record with the wrong field count (one field instead of
two) does not fail: it silently loads as the empty database. -/
theorem C8_counterexample :
    load_fingerprints [[Tok.badTok]] = some [] ∧
    ([[Tok.badTok]] : List (List Tok)).length = 1 := by
  exact ⟨rfl, rfl⟩

/-- Claim C8 as amended: records with the wrong field count are silently
skipped, and loading fails exactly when some record with exactly two fields
has a video id on which `int` fails or a second field on which
`ast.literal_eval` fails. -/
theorem C8_amended_parse_failures (lines : List (List Tok)) :
    (load_fingerprints lines = none ↔
      ∃ line ∈ lines, line.length = 2 ∧
        (pyInt (line.getD 0 Tok.badTok) = none ∨
          pyLiteralEval (line.getD 1 Tok.badTok) = none)) ∧
    (∀ line rest db, line.length ≠ 2 → loadLines (line :: rest) db = loadLines rest db) := by
  constructor
  · show load_fingerprints lines = none ↔ _
    unfold load_fingerprints
    generalize ([] : List (ℕ × PyLit)) = db
    induction lines generalizing db with
    | nil => simp [loadLines]
    | cons line rest ih =>
      rw [loadLines]
      by_cases hlen : line.length = 2
      · rw [if_neg (by omega)]
        rcases h0 : pyInt (line.getD 0 Tok.badTok) with _ | vid
        · constructor
          · intro _
            exact ⟨line, List.mem_cons_self line rest, hlen, Or.inl h0⟩
          · intro _
            rfl
        · rcases h1 : pyLiteralEval (line.getD 1 Tok.badTok) with _ | fp
          · constructor
            · intro _
              exact ⟨line, List.mem_cons_self line rest, hlen, Or.inr h1⟩
            · intro _
              rfl
          · simp only [h0, h1]
            rw [ih (dictInsert db vid fp)]
            constructor
            · intro hex
              rcases hex with ⟨l, hl, hcond⟩
              exact ⟨l, List.mem_cons_of_mem line hl, hcond⟩
            · intro hex
              rcases hex with ⟨l, hl, hcond⟩
              rcases List.mem_cons.mp hl with rfl | hl2
              · rcases hcond.2 with hbad | hbad
                · rw [h0] at hbad
                  exact Option.noConfusion hbad
                · rw [h1] at hbad
                  exact Option.noConfusion hbad
              · exact ⟨l, hl2, hcond⟩
      · rw [if_pos hlen, ih db]
        constructor
        · intro hex
          rcases hex with ⟨l, hl, hcond⟩
          exact ⟨l, List.mem_cons_of_mem line hl, hcond⟩
        · intro hex
          rcases hex with ⟨l, hl, hcond⟩
          rcases List.mem_cons.mp hl with rfl | hl2
          · exact absurd hcond.1 hlen
          · exact ⟨l, hl2, hcond⟩
  · intro line rest db hlen
    rw [loadLines, if_pos hlen]

/-- Witness for the amended C8: a two-field record whose id field is not an
integer makes the load fail. -/
theorem C8_amended_witness :
    load_fingerprints [[Tok.intTok 0, Tok.fpTok [[1], [2], [3]]], [Tok.badTok, Tok.intTok 5]] =
      none :=
  (C8_amended_parse_failures _).1.mpr
    ⟨[Tok.badTok, Tok.intTok 5], by simp, rfl, Or.inl rfl⟩

/-! ### Claims about trace parsing (C9, C10) -/

theorem lastTimeAux_skip (bads rest : List (List String))
    (h : ∀ l ∈ bads, ¬(2 ≤ l.length ∧ dirB (l.getD 1 emptyStr) = true)) :
    lastTimeAux (bads ++ rest) = lastTimeAux rest := by
  induction bads with
  | nil => rfl
  | cons b bs ih =>
    have hb := h b (List.mem_cons_self b bs)
    rw [List.cons_append, lastTimeAux]
    by_cases hlen : b.length < 2
    · rw [if_pos hlen]
      exact ih (fun l hl => h l (List.mem_cons_of_mem b hl))
    · rw [if_neg hlen, if_neg]
      · exact ih (fun l hl => h l (List.mem_cons_of_mem b hl))
      · intro hdir
        exact hb ⟨by omega, hdir⟩

/-- Counterexample to claim C9 as stated: the function `get_last_time` in the source
matches the padding directions `r+p` and `s+p`, so a trace whose only
direction-bearing line is a padding line yields the rounded timestamp of that line, not the no-event sentinel `-1`; and a padding line after the last
non-padding line shifts the detected last time. -/
theorem C9_counterexample :
    get_last_time [["1000000000", "r+p"]] = some 2 ∧
    get_last_time [["2000000000", "r"], ["10000000000", "r+p"]] = some 10 ∧
    (some 2 : Option ℤ) ≠ some (-1) ∧ (some 10 : Option ℤ) ≠ some 2 := by
  decide!

/-- Claim C9 as amended: padding lines are not excluded from last-event
detection.  The last-event timestamp comes from the last trace line having
at least two fields and direction exactly `r`, `r+p`, `s` or `s+p`
(padding directions included), rounded up to the nearest even number of
seconds; only a trace with no such line yields the sentinel `-1`. -/
theorem C9_amended_last_event :
    (∀ lines : List (List String),
      (∀ l ∈ lines, ¬(2 ≤ l.length ∧ dirB (l.getD 1 emptyStr) = true)) →
      get_last_time lines = some (-1)) ∧
    (∀ pre l post, 2 ≤ l.length → dirB (l.getD 1 emptyStr) = true →
      (∀ l2 ∈ post, ¬(2 ≤ l2.length ∧ dirB (l2.getD 1 emptyStr) = true)) →
      get_last_time (pre ++ l :: post) =
        match pyIntStr (l.getD 0 emptyStr) with
        | none => none
        | some t => some (Int.ceil (((t : ℚ) / 1000000000) / 2) * 2)) ∧
    dirB ("r+p") = true ∧ dirB ("s+p") = true := by
  refine ⟨?_, ?_, rfl, rfl⟩
  · intro lines h
    unfold get_last_time
    have h2 : ∀ l ∈ lines.reverse, ¬(2 ≤ l.length ∧ dirB (l.getD 1 emptyStr) = true) :=
      fun l hl => h l (List.mem_reverse.mp hl)
    have := lastTimeAux_skip lines.reverse [] h2
    rw [List.append_nil] at this
    rw [this]
    rfl
  · intro pre l post hlen hdir hpost
    unfold get_last_time
    rw [List.reverse_append, List.reverse_cons]
    have h2 : ∀ l2 ∈ post.reverse, ¬(2 ≤ l2.length ∧ dirB (l2.getD 1 emptyStr) = true) :=
      fun l2 hl2 => hpost l2 (List.mem_reverse.mp hl2)
    rw [List.append_assoc, lastTimeAux_skip post.reverse ([l] ++ pre.reverse) h2]
    show lastTimeAux (l :: pre.reverse) = _
    rw [lastTimeAux, if_neg (by omega), if_pos hdir]

/-- Witness for the amended C9: a padding line that is the last
direction-bearing line determines the last time of a concrete trace. -/
theorem C9_amended_witness :
    get_last_time [["5", "x"], ["4000000000", "s+p"], ["9999", "zz"]] = some 4 := by
  have h := C9_amended_last_event.2.1 [["5", "x"]] (["4000000000", "s+p"])
    [["9999", "zz"]] (by decide) (by decide) (by decide)
  exact h.trans (by decide!)

theorem map_scale_padTo (l : List ℚ) (q : ℚ) :
    padTo (l.map (fun x => x * (1460 / 1500))) q =
      (padTo l q).map (fun x => x * (1460 / 1500)) := by
  unfold padTo
  rw [List.map_append, List.map_replicate, List.length_map]
  norm_num

theorem getD_map_scale (l : List ℚ) (i : ℕ) (c : ℚ) :
    (l.map (fun x => x * c)).getD i 0 = l.getD i 0 * c := by
  rw [List.getD_eq_getElem?_getD, List.getD_eq_getElem?_getD, List.getElem?_map]
  cases l[i]? <;> simp

/-- Claim C10: every bin of the throughput vector produced from a trace is
not the raw downstream byte total of its 2-second interval but that total
multiplied by 1460/1500, the correction being applied uniformly to every bin
(padding bins are zero and unaffected) before any windowing or
classification consumes the vector. -/
theorem C10_header_overhead (lines : List (List String)) (startQ endQ : ℚ) (bw : List ℚ)
    (h : get_throughput lines startQ endQ = some bw) :
    ∃ raw, raw_throughput lines startQ endQ = some raw ∧
      bw = (padTo raw ((startQ - endQ) / 2)).map (fun x => x * (1460 / 1500)) ∧
      ∀ i, bw.getD i 0 = (padTo raw ((startQ - endQ) / 2)).getD i 0 * (1460 / 1500) := by
  unfold get_throughput at h
  rcases hr : raw_throughput lines startQ endQ with _ | raw
  · rw [hr] at h
    cases h
  · rw [hr] at h
    injection h with h2
    refine ⟨raw, rfl, ?_, ?_⟩
    · rw [← h2, map_scale_padTo]
    · intro i
      rw [← h2, map_scale_padTo, getD_map_scale]

/-- Witness for C10 on a concrete two-line trace: the throughput vector is
computed and each bin carries the 1460/1500 factor. -/
theorem C10_witness :
    ∃ raw, raw_throughput [["1000000000", "r", "1500"], ["3000000000", "r", "30"]] 4 0 =
        some raw ∧
      (([1460, 146 / 5] : List ℚ) =
        (padTo raw ((4 - 0) / 2)).map (fun x => x * (1460 / 1500))) ∧
      ∀ i, ([1460, 146 / 5] : List ℚ).getD i 0 =
        (padTo raw ((4 - 0) / 2)).getD i 0 * (1460 / 1500) :=
  C10_header_overhead _ 4 0 [1460, 146 / 5] (by decide!)

/-! ### Claims about the classifier (C2, C3) -/

theorem mem_combinations2 (n i j : ℕ) :
    (i, j) ∈ combinations2 n ↔ i < j ∧ j < n := by
  simp only [combinations2, List.mem_flatMap, List.mem_map, List.mem_filter,
    List.mem_range, decide_eq_true_eq, Prod.mk.injEq]
  constructor
  · rintro ⟨a, ha, b, ⟨hb, hab⟩, rfl, rfl⟩
    exact ⟨hab, hb⟩
  · rintro ⟨hij, hj⟩
    exact ⟨i, lt_trans hij hj, j, ⟨hj, hij⟩, rfl, rfl⟩

/-- Claim C2: whenever a new match record is appended, the classifier tests
every pair of accumulated match records with the same candidate video; a
pair whose database-offset distance is at least 5 and equals its
capture-offset distance makes the scan return that video immediately with
the fast-mode flag, skipping the remaining candidates and offsets.  In
particular records `(v, 10, 5)` and `(v, 16, 11)` trigger the fast decision
while database-offset delta 6 with capture-offset delta 7 does not. -/
theorem C2_fast_mode_rule :
    (∀ ms : List (ℕ × ℕ × ℕ),
      ((fastDecision ms).isSome ↔ ∃ i j, i < j ∧ j < ms.length ∧
        fastPair (ms.getD i (0, 0, 0)) (ms.getD j (0, 0, 0)) = true) ∧
      (∀ v, fastDecision ms = some v → ∃ i j, i < j ∧ j < ms.length ∧
        fastPair (ms.getD i (0, 0, 0)) (ms.getD j (0, 0, 0)) = true ∧
        (ms.getD i (0, 0, 0)).1 = v)) ∧
    (∀ v, fastDecision [(v, 10, 5), (v, 16, 11)] = some v) ∧
    (∀ v, fastDecision [(v, 10, 5), (v, 16, 12)] = none) ∧
    (∀ db md capture offset st ck video quality coffset fp w,
      dictLookup md ck = some (video, quality, coffset) →
      dictLookup db video = some fp →
      verify_candidate capture (((fp.getD quality []).drop coffset).take 30) = some true →
      video < st.counts.length →
      fastDecision (st.matchList ++ [(video, coffset, offset)]) = some w →
      processCandidate db md capture offset st ck = some (Sum.inl (w, true))) ∧
    (∀ db md points T1 T2 bw offset rest st r,
      scanOffset db md points T1 T2 bw offset st = some (Sum.inl r) →
      scanLoop db md points T1 T2 bw (offset :: rest) st = some (Sum.inl r)) := by
  refine ⟨?_, ?_, ?_, ?_, ?_⟩
  · intro ms
    constructor
    · unfold fastDecision
      rw [Option.isSome_map']
      rw [List.find?_isSome]
      constructor
      · rintro ⟨p, hp, hpair⟩
        exact ⟨p.1, p.2, ((mem_combinations2 _ p.1 p.2).mp hp).1,
          ((mem_combinations2 _ p.1 p.2).mp hp).2, hpair⟩
      · rintro ⟨i, j, hij, hj, hpair⟩
        exact ⟨(i, j), (mem_combinations2 _ i j).mpr ⟨hij, hj⟩, hpair⟩
    · intro v hv
      unfold fastDecision at hv
      rcases Option.map_eq_some'.mp hv with ⟨p, hfind, hval⟩
      have hmem := List.mem_of_find?_eq_some hfind
      have hpair := List.find?_some hfind
      exact ⟨p.1, p.2, ((mem_combinations2 _ p.1 p.2).mp hmem).1,
        ((mem_combinations2 _ p.1 p.2).mp hmem).2, hpair, hval⟩
  · intro v
    have hp : fastPair (v, 10, 5) (v, 16, 11) = true := by
      unfold fastPair
      norm_num
    have hc : combinations2 2 = [(0, 1)] := by decide
    unfold fastDecision
    rw [show ([(v, 10, 5), (v, 16, 11)] : List (ℕ × ℕ × ℕ)).length = 2 from rfl, hc,
      List.find?_cons]
    simp only [List.getD_cons_zero, List.getD_cons_succ, hp]
    rfl
  · intro v
    have hp : fastPair (v, 10, 5) (v, 16, 12) = false := by
      unfold fastPair
      norm_num
    have hc : combinations2 2 = [(0, 1)] := by decide
    unfold fastDecision
    rw [show ([(v, 10, 5), (v, 16, 12)] : List (ℕ × ℕ × ℕ)).length = 2 from rfl, hc,
      List.find?_cons]
    simp only [List.getD_cons_zero, List.getD_cons_succ, hp]
    rfl
  · intro db md capture offset st ck video quality coffset fp w hmd hdb hver hlt hfast
    unfold processCandidate
    simp only [hmd, hdb, hver, hfast, if_pos hlt]
  · intro db md points T1 T2 bw offset rest st r h
    rw [scanLoop, h]

/-- Witness for C2: the very fast-trigger and non-trigger
instances, a further pair reachable through the general rule, and a fully
concrete verified match whose appended record `(3, 16, 11)` joins the
accumulated record `(3, 10, 5)` and fires the fast-mode return. -/
theorem C2_witness :
    fastDecision [(3, 10, 5), (3, 16, 11)] = some 3 ∧
    fastDecision [(3, 10, 5), (3, 16, 12)] = none ∧
    (fastDecision [(7, 2, 9), (7, 8, 3)]).isSome ∧
    processCandidate
      [(3, [List.replicate 16 (0 : ℚ) ++ (List.range 30).map (fun i : ℕ => (i : ℚ) + 1),
        [], []])]
      [(⟨0, 0, 0, 0, 0, 0⟩, (3, 0, 16))]
      ((List.range 30).map (fun i : ℕ => (i : ℚ) + 1)) 11
      ⟨[(3, 10, 5)], List.replicate 100 0⟩ ⟨0, 0, 0, 0, 0, 0⟩ =
      some (Sum.inl (3, true)) := by
  have h := C2_fast_mode_rule.2.2.2.1
    [(3, [List.replicate 16 (0 : ℚ) ++ (List.range 30).map (fun i : ℕ => (i : ℚ) + 1),
      [], []])]
    [(⟨0, 0, 0, 0, 0, 0⟩, (3, 0, 16))]
    ((List.range 30).map (fun i : ℕ => (i : ℚ) + 1)) 11
    ⟨[(3, 10, 5)], List.replicate 100 0⟩ ⟨0, 0, 0, 0, 0, 0⟩ 3 0 16
    [List.replicate 16 (0 : ℚ) ++ (List.range 30).map (fun i : ℕ => (i : ℚ) + 1), [], []] 3
    (by decide!) (by decide!) (by decide!) (by decide!) (by decide!)
  exact ⟨C2_fast_mode_rule.2.1 3, C2_fast_mode_rule.2.2.1 3,
    ((C2_fast_mode_rule.1 _).1).mpr ⟨0, 1, by decide, by decide, by decide⟩, h⟩

theorem foldl_max_le_init (l : List ℕ) (a : ℕ) : a ≤ l.foldl max a := by
  induction l generalizing a with
  | nil => exact le_refl a
  | cons b t ih => exact le_trans (le_max_left a b) (ih (max a b))

theorem le_foldl_max (l : List ℕ) (a x : ℕ) (hx : x ∈ l) : x ≤ l.foldl max a := by
  induction l generalizing a with
  | nil => cases hx
  | cons b t ih =>
    rcases List.mem_cons.mp hx with rfl | hx2
    · exact le_trans (le_max_right a x) (foldl_max_le_init t (max a x))
    · exact ih (max a b) hx2

theorem foldl_max_mem (l : List ℕ) (a : ℕ) : l.foldl max a = a ∨ l.foldl max a ∈ l := by
  induction l generalizing a with
  | nil => exact Or.inl rfl
  | cons b t ih =>
    rcases ih (max a b) with h | h
    · rcases max_choice a b with hm | hm
      · exact Or.inl (by rw [List.foldl_cons, h, hm])
      · exact Or.inr (by rw [List.foldl_cons, h, hm]; exact List.mem_cons_self b t)
    · exact Or.inr (List.mem_cons_of_mem b h)

theorem maxOfList_mem (l : List ℕ) (hl : l ≠ []) : maxOfList l ∈ l := by
  rcases foldl_max_mem l 0 with h | h
  · rcases l with _ | ⟨x, t⟩
    · exact absurd rfl hl
    · have hx : x ≤ maxOfList (x :: t) := le_foldl_max (x :: t) 0 x (List.mem_cons_self x t)
      have hx0 : maxOfList (x :: t) = 0 := h
      rw [hx0] at hx
      have hx1 : x = 0 := Nat.le_zero.mp hx
      show maxOfList (x :: t) ∈ x :: t
      rw [hx0, ← hx1]
      exact List.mem_cons_self x t
  · exact h

theorem getD_mem (l : List ℕ) (j : ℕ) (hj : j < l.length) : l.getD j 0 ∈ l := by
  rw [List.getD_eq_getElem?_getD, List.getElem?_eq_getElem hj]
  simpa using List.getElem_mem l j hj

theorem getD_lt_indexOf_ne (l : List ℕ) (m j : ℕ) (hj : j < l.indexOf m) :
    l.getD j 0 ≠ m := by
  induction l generalizing j with
  | nil => simp [List.indexOf] at hj
  | cons a t ih =>
    by_cases ha : a = m
    · subst ha
      rw [List.indexOf_cons_self] at hj
      omega
    · rw [List.indexOf_cons_ne _ ha] at hj
      cases j with
      | zero => simpa using ha
      | succ k =>
        simp only [List.getD_cons_succ]
        exact ih k (by omega)

theorem getD_indexOf (l : List ℕ) (m : ℕ) (hm : m ∈ l) :
    l.getD (l.indexOf m) 0 = m := by
  have h := List.indexOf_lt_length.mpr hm
  rw [List.getD_eq_getElem?_getD, List.getElem?_eq_getElem h]
  simpa [List.get_eq_getElem] using List.indexOf_get h

theorem scanLoop_empty_points (db : List (ℕ × List (List ℚ)))
    (md : List (Key6 × (ℕ × ℕ × ℕ))) (T1 T2 : ℚ) (bw : List ℚ) :
    ∀ offsets st, (∀ o ∈ offsets, ((bw.drop o).take 30).sum ≠ 0) →
      scanLoop db md [] T1 T2 bw offsets st = some (Sum.inr st) := by
  intro offsets
  induction offsets with
  | nil => intro st _; rfl
  | cons o rest ih =>
    intro st h
    have hkey : calculate_key? ((bw.drop o).take 30) =
        some (calculate_key ((bw.drop o).take 30)) := by
      unfold calculate_key?
      rw [if_neg (h o (List.mem_cons_self o rest))]
    have hso : scanOffset db md [] T1 T2 bw o st = some (Sum.inr st) := by
      unfold scanOffset
      simp only [hkey]
      rfl
    rw [scanLoop, hso]
    exact ih st (fun o2 ho2 => h o2 (List.mem_cons_of_mem o ho2))

/-- Claim C3: when the scan finishes with no fast-mode decision, the
classifier returns the index of the first maximal vote count (the video with
the highest count, ties broken by lowest id) in slow mode; and with an empty
spatial index (in particular the one built from an empty fingerprint
database) every vote count stays zero and the classifier deterministically
returns video 0 in slow mode, provided no capture window makes the key
computation raise. -/
theorem C3_slow_mode :
    (∀ db md points bw loose st,
      scanLoop db md points (T1sel loose) (T2sel loose) bw
        (List.range (bw.length - 29)) initState = some (Sum.inr st) →
      classify_bw db md points bw loose =
        some (st.counts.indexOf (maxOfList st.counts), false)) ∧
    (∀ l : List ℕ, l ≠ [] →
      l.indexOf (maxOfList l) < l.length ∧
      l.getD (l.indexOf (maxOfList l)) 0 = maxOfList l ∧
      (∀ j, l.getD j 0 ≤ maxOfList l) ∧
      (∀ j < l.indexOf (maxOfList l), l.getD j 0 < maxOfList l)) ∧
    (∀ db md bw loose,
      (∀ o ∈ List.range (bw.length - 29), ((bw.drop o).take 30).sum ≠ 0) →
      classify_bw db md [] bw loose = some (0, false)) ∧
    build_kdtree [] = some ([], []) := by
  refine ⟨?_, ?_, ?_, rfl⟩
  · intro db md points bw loose st h
    unfold classify_bw
    rw [h]
  · intro l hl
    have hmem : maxOfList l ∈ l := maxOfList_mem l hl
    have hlt : l.indexOf (maxOfList l) < l.length := List.indexOf_lt_length.mpr hmem
    refine ⟨hlt, getD_indexOf l _ hmem, ?_, ?_⟩
    · intro j
      by_cases hj : j < l.length
      · exact le_foldl_max l 0 _ (getD_mem l j hj)
      · rw [List.getD_eq_getElem?_getD, List.getElem?_eq_none (by omega)]
        exact Nat.zero_le _
    · intro j hj
      have hne := getD_lt_indexOf_ne l (maxOfList l) j hj
      have hle : l.getD j 0 ≤ maxOfList l :=
        le_foldl_max l 0 _ (getD_mem l j (lt_trans hj hlt))
      omega
  · intro db md bw loose h
    unfold classify_bw
    rw [scanLoop_empty_points db md (T1sel loose) (T2sel loose) bw
      (List.range (bw.length - 29)) initState h]
    decide!

/-- Witness for C3: an empty index classifies a concrete all-ones throughput
vector as video 0 in slow mode, and the vote profile `[3, 3, 1]` resolves to
the first maximum. -/
theorem C3_witness :
    classify_bw [] [] [] (List.replicate 30 (1 : ℚ)) true = some (0, false) ∧
    ([3, 3, 1] : List ℕ).getD (([3, 3, 1] : List ℕ).indexOf (maxOfList [3, 3, 1])) 0 =
      maxOfList [3, 3, 1] ∧
    (∀ j < ([3, 3, 1] : List ℕ).indexOf (maxOfList [3, 3, 1]),
      ([3, 3, 1] : List ℕ).getD j 0 < maxOfList [3, 3, 1]) := by
  refine ⟨C3_slow_mode.2.2.1 [] [] _ true ?_, (C3_slow_mode.2.1 [3, 3, 1] (by decide)).2.1,
    (C3_slow_mode.2.1 [3, 3, 1] (by decide)).2.2.2⟩
  intro o ho
  have ho2 : o = 0 := by simpa using ho
  subst ho2
  decide!

/-! ### Order instances and sorting lemmas for the correlation verifier (C1) -/

instance : IsTotal (ℚ × ℕ) pairLe :=
  ⟨by
    intro a b
    unfold pairLe
    rcases lt_trichotomy a.1 b.1 with h | h | h
    · exact Or.inl (Or.inl h)
    · rcases le_total a.2 b.2 with h2 | h2
      · exact Or.inl (Or.inr ⟨h, h2⟩)
      · exact Or.inr (Or.inr ⟨h.symm, h2⟩)
    · exact Or.inr (Or.inl h)⟩

instance : IsTrans (ℚ × ℕ) pairLe :=
  ⟨by
    intro a b c hab hbc
    unfold pairLe at hab hbc ⊢
    rcases hab with h1 | ⟨h1, h1b⟩ <;> rcases hbc with h2 | ⟨h2, h2b⟩
    · exact Or.inl (lt_trans h1 h2)
    · exact Or.inl (h2 ▸ h1)
    · exact Or.inl (h1 ▸ h2)
    · exact Or.inr ⟨h1.trans h2, le_trans h1b h2b⟩⟩

instance : IsAntisymm (ℚ × ℕ) pairLe :=
  ⟨by
    intro a b hab hba
    unfold pairLe at hab hba
    rcases hab with h1 | ⟨h1, h1b⟩
    · rcases hba with h2 | ⟨h2, h2b⟩
      · exact absurd (lt_trans h1 h2) (lt_irrefl _)
      · exact absurd h1 (h2 ▸ lt_irrefl _)
    · rcases hba with h2 | ⟨h2, h2b⟩
      · exact absurd h2 (h1 ▸ lt_irrefl _)
      · exact Prod.ext h1 (le_antisymm h1b h2b)⟩

instance : IsTotal (ℚ × ℕ) pairGe :=
  ⟨fun a b => (total_of pairLe b a).imp id id⟩

instance : IsTrans (ℚ × ℕ) pairGe :=
  ⟨fun _ _ _ hab hbc => trans_of pairLe hbc hab⟩

instance : IsAntisymm (ℚ × ℕ) pairGe :=
  ⟨fun _ _ hab hba => antisymm_of pairLe hba hab⟩

instance : IsTotal ℕ natGe :=
  ⟨fun a b => (le_total b a).imp id id⟩

instance : IsTrans ℕ natGe :=
  ⟨fun _ _ _ hab hbc => le_trans hbc hab⟩

theorem sorted_pairGe_reverse (l : List (ℚ × ℕ)) (h : l.Sorted pairLe) :
    l.reverse.Sorted pairGe :=
  List.pairwise_reverse.mpr h

theorem insertionSort_pairGe_eq_reverse (l : List (ℚ × ℕ)) :
    List.insertionSort pairGe l = (List.insertionSort pairLe l).reverse := by
  have hp : List.Perm (List.insertionSort pairGe l)
      ((List.insertionSort pairLe l).reverse) :=
    ((List.perm_insertionSort pairGe l).trans
      (List.perm_insertionSort pairLe l).symm).trans (List.reverse_perm _).symm
  exact List.eq_of_perm_of_sorted hp (List.sorted_insertionSort pairGe l)
    (sorted_pairGe_reverse _ (List.sorted_insertionSort pairLe l))

theorem reverse_take_eq_drop {α : Type} (l : List α) (n : ℕ) :
    l.reverse.take n = (l.drop (l.length - n)).reverse := by
  by_cases hn : n ≤ l.length
  · conv_lhs => rw [← List.take_append_drop (l.length - n) l]
    rw [List.reverse_append]
    exact List.take_left' (by rw [List.length_reverse, List.length_drop]; omega)
  · rw [List.take_of_length_le (by rw [List.length_reverse]; omega)]
    have h0 : l.length - n = 0 := by omega
    rw [h0, List.drop_zero]

theorem getD_eraseIdx_lt {α : Type} (l : List α) (i j : ℕ) (d : α) (hj : j < i) :
    (l.eraseIdx i).getD j d = l.getD j d := by
  induction l generalizing i j with
  | nil => rfl
  | cons a t ih =>
    cases i with
    | zero => omega
    | succ i2 =>
      rw [List.eraseIdx_cons_succ]
      cases j with
      | zero => rfl
      | succ j2 =>
        rw [List.getD_cons_succ, List.getD_cons_succ]
        exact ih i2 j2 (by omega)

theorem getD_eraseIdx_ge {α : Type} (l : List α) (i j : ℕ) (d : α) (hj : i ≤ j) :
    (l.eraseIdx i).getD j d = l.getD (j + 1) d := by
  induction l generalizing i j with
  | nil => rfl
  | cons a t ih =>
    cases i with
    | zero => rfl
    | succ i2 =>
      rw [List.eraseIdx_cons_succ]
      cases j with
      | zero => omega
      | succ j2 =>
        rw [List.getD_cons_succ, List.getD_cons_succ]
        exact ih i2 j2 (by omega)

theorem map_getD_range {α : Type} (l : List α) (d : α) :
    (List.range l.length).map (fun i => l.getD i d) = l := by
  induction l with
  | nil => rfl
  | cons a t ih =>
    rw [List.length_cons, List.range_succ_eq_map, List.map_cons, List.map_map]
    have h2 : ((fun i => (a :: t).getD i d) ∘ Nat.succ) = fun i => t.getD i d := by
      funext i
      simp [Function.comp]
    rw [h2, ih]
    rfl

theorem eraseIdxs_eq_filter (l : List ℚ) (idxs : List ℕ)
    (hs : idxs.Sorted (fun a b : ℕ => b < a)) (hb : ∀ i ∈ idxs, i < l.length) :
    eraseIdxs l idxs =
      ((List.range l.length).filter (fun i => !(decide (i ∈ idxs)))).map
        (fun i => l.getD i 0) := by
  induction idxs generalizing l with
  | nil =>
    have hf : (List.range l.length).filter (fun i => !(decide (i ∈ ([] : List ℕ)))) =
        List.range l.length :=
      List.filter_eq_self.mpr (by intro a _; simp)
    rw [hf, map_getD_range]
    rfl
  | cons i rest ih =>
    have hcons := List.sorted_cons.mp hs
    have hlt : ∀ j ∈ rest, j < i := hcons.1
    have hi : i < l.length := hb i (List.mem_cons_self i rest)
    have hlen : (l.eraseIdx i).length = l.length - 1 := List.length_eraseIdx_of_lt hi
    have hstep : eraseIdxs l (i :: rest) = eraseIdxs (l.eraseIdx i) rest := rfl
    have hb2 : ∀ j ∈ rest, j < (l.eraseIdx i).length := by
      intro j hj
      rw [hlen]
      have := hlt j hj
      omega
    rw [hstep, ih (l.eraseIdx i) hcons.2 hb2, hlen]
    obtain ⟨k, hk⟩ : ∃ k, k = l.length - 1 - i := ⟨l.length - 1 - i, rfl⟩
    have hn1 : l.length - 1 = i + k := by omega
    have hn : l.length = (i + 1) + k := by omega
    rw [hn1, hn, List.range_add, List.range_add, List.range_succ]
    rw [List.filter_append, List.filter_append, List.map_append, List.map_append]
    congr 1
    · -- left halves: indices below i
      rw [List.filter_append]
      have hfi : [i].filter (fun j => !(decide (j ∈ i :: rest))) = [] := by simp
      rw [hfi, List.append_nil]
      have hcongr : (List.range i).filter (fun j => !(decide (j ∈ i :: rest))) =
          (List.range i).filter (fun j => !(decide (j ∈ rest))) := by
        apply List.filter_congr
        intro j hj
        have hji : j < i := List.mem_range.mp hj
        have hiff : (j ∈ i :: rest) ↔ (j ∈ rest) := by
          rw [List.mem_cons]
          constructor
          · rintro (rfl | h)
            · omega
            · exact h
          · exact Or.inr
        rw [decide_eq_decide.mpr hiff]
      rw [hcongr]
      apply List.map_congr_left
      intro j hj
      have hji : j < i := List.mem_range.mp (List.mem_of_mem_filter hj)
      exact getD_eraseIdx_lt l i j 0 hji
    · -- right halves: indices at or above i, shifted by the deletion
      have hfa : ((List.range k).map (fun x => i + x)).filter
          (fun j => !(decide (j ∈ rest))) =
          (List.range k).map (fun x => i + x) := by
        apply List.filter_eq_self.mpr
        intro a ha
        rcases List.mem_map.mp ha with ⟨x, _, rfl⟩
        have : i + x ∉ rest := fun hmem => absurd (hlt _ hmem) (by omega)
        simp [this]
      have hfb : ((List.range k).map (fun x => (i + 1) + x)).filter
          (fun j => !(decide (j ∈ i :: rest))) =
          (List.range k).map (fun x => (i + 1) + x) := by
        apply List.filter_eq_self.mpr
        intro a ha
        rcases List.mem_map.mp ha with ⟨x, _, rfl⟩
        have h1 : (i + 1) + x ∉ rest := fun hmem => absurd (hlt _ hmem) (by omega)
        have h2 : ¬((i + 1) + x = i) := by omega
        simp [List.mem_cons, h1, h2]
      rw [hfa, hfb, List.map_map, List.map_map]
      apply List.map_congr_left
      intro x _
      show (l.eraseIdx i).getD (i + x) 0 = l.getD ((i + 1) + x) 0
      rw [getD_eraseIdx_ge l i (i + x) 0 (by omega)]
      congr 1
      omega

theorem getD_mem_q (l : List ℚ) (j : ℕ) (hj : j < l.length) : l.getD j 0 ∈ l := by
  rw [List.getD_eq_getElem?_getD, List.getElem?_eq_getElem hj]
  simpa using List.getElem_mem l j hj

theorem pearsonGT_of_eq_thresh (x y : List ℚ) (t : ℚ) (h : pearsonEqThresh x y t) :
    pearsonGT x y t = false := by
  unfold pearsonGT
  have hlt : ¬(t * t * (pvar x * pvar y) < pcov x y * pcov x y) := by
    rw [h.2.2.2]
    exact lt_irrefl _
  simp [hlt]

theorem relDiffs_map_snd (capture candidate : List ℚ) :
    (relDiffs capture candidate).map Prod.snd = List.range 30 := by
  unfold relDiffs
  rw [List.map_map]
  have hcomp : (Prod.snd ∘ fun i : ℕ =>
      ((|(candidate.getD i 0 - capture.getD i 0) / capture.getD i 0| : ℚ), i)) =
      fun i : ℕ => i := rfl
  rw [hcomp]
  exact List.map_id (List.range 30)

theorem specRelDiffs_eq_relDiffs (capture candidate : List ℚ)
    (hcap : capture.length = 30) (hpos : ∀ x ∈ capture, 0 < x) :
    specRelDiffs capture candidate = relDiffs capture candidate := by
  unfold specRelDiffs relDiffs
  apply List.map_congr_left
  intro i hi
  have hi30 : i < 30 := List.mem_range.mp hi
  have hp : 0 < capture.getD i 0 := hpos _ (getD_mem_q capture i (by omega))
  refine Prod.ext ?_ rfl
  show |candidate.getD i 0 - capture.getD i 0| / capture.getD i 0 =
    |(candidate.getD i 0 - capture.getD i 0) / capture.getD i 0|
  rw [abs_div, abs_of_pos hp]

theorem kept_eq_core (ds : List (ℚ × ℕ)) (l : List ℚ) (hl : l.length = 30)
    (hds : ds.map Prod.snd = List.range 30) :
    eraseIdxs l (List.insertionSort natGe
      (((List.insertionSort pairLe ds).drop
        ((List.insertionSort pairLe ds).length - 4)).map Prod.snd)) =
    ((List.range 30).filter (fun i =>
      !(decide (i ∈ ((List.insertionSort pairGe ds).take 4).map Prod.snd)))).map
      (fun i => l.getD i 0) := by
  have hos : ((List.insertionSort pairGe ds).take 4).map Prod.snd =
      (((List.insertionSort pairLe ds).drop
        ((List.insertionSort pairLe ds).length - 4)).map Prod.snd).reverse := by
    rw [insertionSort_pairGe_eq_reverse, reverse_take_eq_drop, List.map_reverse]
  have hsndperm : List.Perm ((List.insertionSort pairLe ds).map Prod.snd)
      (List.range 30) := by
    have h1 : List.Perm (List.insertionSort pairLe ds) ds := List.perm_insertionSort _ _
    have h2 := h1.map Prod.snd
    rwa [hds] at h2
  have hsndnodup : ((List.insertionSort pairLe ds).map Prod.snd).Nodup :=
    hsndperm.nodup_iff.mpr (List.nodup_range 30)
  have hocdrop : ((List.insertionSort pairLe ds).drop
      ((List.insertionSort pairLe ds).length - 4)).map Prod.snd =
      ((List.insertionSort pairLe ds).map Prod.snd).drop
        ((List.insertionSort pairLe ds).length - 4) := by
    rw [List.map_drop]
  have hocnodup : (((List.insertionSort pairLe ds).drop
      ((List.insertionSort pairLe ds).length - 4)).map Prod.snd).Nodup := by
    rw [hocdrop]
    exact hsndnodup.sublist (List.drop_sublist _ _)
  have hocbound : ∀ j ∈ ((List.insertionSort pairLe ds).drop
      ((List.insertionSort pairLe ds).length - 4)).map Prod.snd, j < 30 := by
    intro j hj
    rw [hocdrop] at hj
    exact List.mem_range.mp (hsndperm.subset (List.drop_subset _ _ hj))
  have hodperm : List.Perm (List.insertionSort natGe
      (((List.insertionSort pairLe ds).drop
        ((List.insertionSort pairLe ds).length - 4)).map Prod.snd))
      (((List.insertionSort pairLe ds).drop
        ((List.insertionSort pairLe ds).length - 4)).map Prod.snd) :=
    List.perm_insertionSort _ _
  have hodnodup := hodperm.nodup_iff.mpr hocnodup
  have hodsorted := List.sorted_insertionSort natGe
    (((List.insertionSort pairLe ds).drop
      ((List.insertionSort pairLe ds).length - 4)).map Prod.snd)
  have hodstrict : (List.insertionSort natGe
      (((List.insertionSort pairLe ds).drop
        ((List.insertionSort pairLe ds).length - 4)).map Prod.snd)).Sorted
      (fun a b : ℕ => b < a) :=
    (List.Pairwise.and hodsorted hodnodup).imp
      (fun h => lt_of_le_of_ne h.1 (Ne.symm h.2))
  have hodbound : ∀ j ∈ List.insertionSort natGe
      (((List.insertionSort pairLe ds).drop
        ((List.insertionSort pairLe ds).length - 4)).map Prod.snd), j < l.length := by
    intro j hj
    rw [hl]
    exact hocbound j (hodperm.subset hj)
  rw [eraseIdxs_eq_filter l _ hodstrict hodbound, hl]
  congr 1
  apply List.filter_congr
  intro j _
  have hmem : (j ∈ List.insertionSort natGe
      (((List.insertionSort pairLe ds).drop
        ((List.insertionSort pairLe ds).length - 4)).map Prod.snd)) ↔
      (j ∈ ((List.insertionSort pairGe ds).take 4).map Prod.snd) := by
    rw [hos, List.mem_reverse]
    exact hodperm.mem_iff
  rw [decide_eq_decide.mpr hmem]

/-- Claim C1: on every 30-element capture window with positive entries (a
nonzero downstream byte total in every bin) and every 30-element candidate
window, the correlation verifier of the code computes exactly what the
specification describes: the relative difference `|candidate[i] - capture[i]|
/ capture[i]` per index, the four indices of largest relative difference as
outliers, removal of those four positions from both sequences preserving the
order of the remaining 26, and acceptance exactly when the Pearson correlation
coefficient of the reduced sequences strictly exceeds 0.9; a coefficient
exactly equal to 0.9 is never accepted. -/
theorem C1_correlation_verifier (capture candidate : List ℚ)
    (hcap : capture.length = 30) (hcand : candidate.length = 30)
    (hpos : ∀ x ∈ capture, 0 < x) :
    verify_candidate capture candidate = some (verify_spec capture candidate) ∧
    (∀ x y : List ℚ, pearsonEqThresh x y CORRELATION_THRESH →
      pearsonGT x y CORRELATION_THRESH = false) := by
  refine ⟨?_, fun x y h => pearsonGT_of_eq_thresh x y CORRELATION_THRESH h⟩
  have hz : ((List.range 30).any (fun i => decide (capture.getD i 0 = 0))) = false := by
    rw [List.any_eq_false]
    intro i hi
    have h30 : i < 30 := List.mem_range.mp hi
    simp only [decide_eq_true_eq]
    exact ne_of_gt (hpos _ (getD_mem_q capture i (by omega)))
  have hvc : verify_candidate capture candidate =
      some (pearsonGT
        (eraseIdxs capture (List.insertionSort natGe
          (((List.insertionSort pairLe (relDiffs capture candidate)).drop
            ((List.insertionSort pairLe (relDiffs capture candidate)).length - 4)).map
            Prod.snd)))
        (eraseIdxs candidate (List.insertionSort natGe
          (((List.insertionSort pairLe (relDiffs capture candidate)).drop
            ((List.insertionSort pairLe (relDiffs capture candidate)).length - 4)).map
            Prod.snd)))
        CORRELATION_THRESH) := by
    unfold verify_candidate
    rw [if_neg (by
      intro hcond
      rw [hz] at hcond
      exact Bool.false_ne_true hcond)]
  have hvs : verify_spec capture candidate =
      pearsonGT
        (((List.range 30).filter (fun i =>
          !(decide (i ∈ ((List.insertionSort pairGe
            (specRelDiffs capture candidate)).take 4).map Prod.snd)))).map
          (fun i => capture.getD i 0))
        (((List.range 30).filter (fun i =>
          !(decide (i ∈ ((List.insertionSort pairGe
            (specRelDiffs capture candidate)).take 4).map Prod.snd)))).map
          (fun i => candidate.getD i 0))
        CORRELATION_THRESH := rfl
  rw [hvc, hvs, specRelDiffs_eq_relDiffs capture candidate hcap hpos,
    kept_eq_core (relDiffs capture candidate) capture hcap
      (relDiffs_map_snd capture candidate),
    kept_eq_core (relDiffs capture candidate) candidate hcand
      (relDiffs_map_snd capture candidate)]

/-- Witness for C1: the equivalence at a concrete window pair, and a pair of
samples whose correlation coefficient is exactly 0.9 that is rejected. -/
theorem C1_witness :
    verify_candidate (List.replicate 30 (1 : ℚ)) (List.replicate 30 (1 : ℚ)) =
      some (verify_spec (List.replicate 30 (1 : ℚ)) (List.replicate 30 (1 : ℚ))) ∧
    pearsonGT [1, -1, 0, 0, 0] [5, -4, -2, -1, 2] CORRELATION_THRESH = false := by
  have hmain := C1_correlation_verifier (List.replicate 30 1) (List.replicate 30 1)
    (by simp) (by simp)
    (by
      intro x hx
      rw [List.eq_of_mem_replicate hx]
      norm_num)
  refine ⟨hmain.1, hmain.2 [1, -1, 0, 0, 0] [5, -4, -2, -1, 2] ?_⟩
  refine ⟨?_, ?_, ?_, ?_⟩ <;> decide!

end Leaky
